import Mathlib

/-!
Verification of the insight-extraction evaluation engine of the `syn`
repository (package `internal/eval`): the scorer (`score.go`), the
summary aggregator, the output parser (`parse.go`), the dataset pairing
validation (`dataset.go`) and the run-history store / leaderboard
builder (`history.go`).

Strings are modelled as `List Char`.  Go's `strings.ToLower` is modelled
by `Char.toLower` (ASCII case mapping); every character outside
`[a-z0-9]` and ASCII whitespace is erased to a space by the
normalization regular expression in both the source and the model, so
the two agree on `normalizeText` for all inputs.  Go `float64`
arithmetic is modelled by `ℚ`; every division in the source is guarded
by a positivity test on the denominator, so no rounding-free model
divergence can be observed by the properties proved here.
-/

/-- Text is modelled as a list of characters. -/
abbrev Str := List Char

/-- The opening curly bracket character. -/
def lbrace : Char := Char.ofNat 123

/-- The closing curly bracket character. -/
def rbrace : Char := Char.ofNat 125

/-- The apostrophe character. -/
def apos : Char := Char.ofNat 39

/-- The backtick character used by markdown code fences. -/
def btick : Char := Char.ofNat 96

/-- ASCII whitespace, the class recognised by `strings.TrimSpace` and by
the `\s` class of the normalization regular expression on ASCII text. -/
def isSp (c : Char) : Bool :=
  c = ' ' || c = '\t' || c = '\n' || c = '\x0b' || c = '\x0c' || c = '\r'

/-- Go `strings.TrimSpace`: drop whitespace from both ends. -/
def trimChars (s : Str) : Str :=
  ((s.dropWhile isSp).reverse.dropWhile isSp).reverse

/-- Go `strings.ToLower` (ASCII case mapping). -/
def toLowerL (s : Str) : Str := s.map Char.toLower

/-- Go `strings.Contains hay needle`: `needle` occurs as a contiguous
substring of `hay`. -/
def listContains (hay needle : Str) : Bool :=
  hay.tails.any (fun t => needle.isPrefixOf t)

/-- Go `strings.TrimPrefix p s`. -/
def trimPre (p s : Str) : Str :=
  if p.isPrefixOf s then s.drop p.length else s

/-- Go `strings.TrimSuffix p s`. -/
def trimSuf (p s : Str) : Str :=
  if p.isSuffixOf s then s.take (s.length - p.length) else s

/-- A character kept by the normalization regular expression
`[^a-z0-9\s]+` of `score.go` (everything else is replaced by space). -/
def isWordChar (c : Char) : Bool :=
  (decide ('a' ≤ c) && decide (c ≤ 'z')) || (decide ('0' ≤ c) && decide (c ≤ '9'))

/-- `nonWordRe.ReplaceAllString s " "`: every character outside
`[a-z0-9\s]` becomes a space.  The Go regex replaces a maximal *run* of
such characters with one space while this model replaces each character
(and also each whitespace character) with a space; the two differ only
in the length of separator runs, which `strings.Fields` collapses, so
`normalizeText` below agrees with the source on every input. -/
def sanitize (s : Str) : Str :=
  s.map (fun c => if isWordChar c then c else ' ')

/-- Go `strings.Fields` on a string whose only separator character is a
space (the shape produced by `sanitize`). -/
def wordsOf (s : Str) : List Str :=
  (s.splitOn ' ').filter (fun w => w ≠ [])

/-- Go `strings.Join ws " "`. -/
def joinWords (ws : List Str) : Str := List.intercalate [' '] ws

/-- `normalizeText` of `score.go`: trim, lowercase, erase non
`[a-z0-9]` characters to spaces, split into fields and re-join with
single spaces. -/
def normalizeText (s : Str) : Str :=
  joinWords (wordsOf (sanitize (toLowerL (trimChars s))))

/-- `normalizeLines` of `parse.go`: trim every entry and drop the ones
that become empty. -/
def normalizeLines (xs : List Str) : List Str :=
  (xs.map trimChars).filter (fun v => v ≠ [])

/-- `tokenSet` of `score.go`: the set of fields of the normalized text
having at least three characters. -/
def tokenSet (s : Str) : Finset Str :=
  ((wordsOf (normalizeText s)).filter (fun t => 3 ≤ t.length)).toFinset

/-- `tokenOverlap` of `score.go`: `|A ∩ B| / max |A| |B|`, and `0` when
either token set is empty. -/
def tokenOverlap (a b : Str) : ℚ :=
  if (tokenSet a).card = 0 ∨ (tokenSet b).card = 0 then 0
  else ((tokenSet a ∩ tokenSet b).card : ℚ) / ((max (tokenSet a).card (tokenSet b).card : ℕ) : ℚ)

/-- The fixed negation-marker list of `containsNegation` in `score.go`:
`" not "`, `" no "`, `" never "`, `" cannot "`, `" can't "`,
`" without "`. -/
def negationMarkers : List Str :=
  [" not ".toList, " no ".toList, " never ".toList, " cannot ".toList,
   ' ' :: 'c' :: 'a' :: 'n' :: apos :: 't' :: ' ' :: [],
   " without ".toList]

/-- `containsNegation` of `score.go`: some marker occurs in the text
padded with one space on each side. -/
def containsNegation (s : Str) : Bool :=
  negationMarkers.any (fun n => listContains (' ' :: s ++ [' ']) n)

/-- `hasInsightMatch` of `score.go`: a normalized gold insight matches
the predicted list when some predicted insight with non-empty
normalization contains it, is contained in it, or token-overlaps it by
at least `0.55`. -/
def hasInsightMatch (gold : Str) (predicted : List Str) : Bool :=
  let g := normalizeText gold
  predicted.any (fun p =>
    let np := normalizeText p
    !np.isEmpty && (listContains np g || listContains g np ||
      decide ((0.55 : ℚ) ≤ tokenOverlap g np)))

/-- One iteration of the `estimateContradictions` loop of `score.go`:
the contribution (0 or 1) of a single predicted insight.  A prediction
with empty normalization or without a negation marker contributes 0;
otherwise the best-overlapping gold insight is located (strictly larger
overlap wins, ties keep the earlier gold) and the prediction counts
exactly when that best overlap is at least `0.45` and the best gold has
no negation marker. -/
def contradictionFlag (gold : List Str) (p : Str) : ℤ :=
  let np := normalizeText p
  if np.isEmpty then 0
  else if !containsNegation np then 0
  else
    let best := List.foldl (fun (acc : ℚ × Bool) g =>
      let ng := normalizeText g
      let s := tokenOverlap np ng
      if acc.1 < s then (s, containsNegation ng) else acc) ((0 : ℚ), false) gold
    if (0.45 : ℚ) ≤ best.1 ∧ best.2 = false then 1 else 0

/-- `estimateContradictions` of `score.go`.  The Go loop accumulates
`count++` over the predictions; the contributions are independent, so
the count is the sum of the per-prediction flags. -/
def estimateContradictions (gold predicted : List Str) : ℤ :=
  (predicted.map (fun p => contradictionFlag gold p)).sum

/-- `Case` of `types.go`. -/
structure Case where
  ID : String
  Title : String
  Source : Str
  GoldInsights : List Str

/-- `ParsedOutput` of `types.go`. -/
structure ParsedOutput where
  TLDR : Str
  KeyInsights : List Str
  EvidenceQuotes : List Str
deriving DecidableEq

/-- `Score` of `types.go`. -/
structure Score where
  Recall : ℚ
  MissingInsights : ℤ
  Contradictions : ℤ
  QuoteCoverage : ℚ
  FormatCompliant : Bool
  Pass : Bool
  MatchedGoldCount : ℕ

/-- `missingCount` of `score.go`: `total - matched` clamped at zero. -/
def missingCount (total matched : ℤ) : ℤ :=
  if total - matched < 0 then 0 else total - matched

/-- `ScoreCase` of `score.go`. -/
def ScoreCase (c : Case) (out : ParsedOutput) (recallThreshold : ℚ) : Score :=
  let gold := normalizeLines c.GoldInsights
  let matched := gold.countP (fun g => hasInsightMatch g out.KeyInsights)
  let recallVal : ℚ := if 0 < gold.length then (matched : ℚ) / (gold.length : ℚ) else 0
  let quoteHits := out.EvidenceQuotes.countP
    (fun q => listContains (toLowerL c.Source) (toLowerL (trimChars q)))
  let coverage : ℚ :=
    if 0 < out.EvidenceQuotes.length then (quoteHits : ℚ) / (out.EvidenceQuotes.length : ℚ)
    else 0
  let contradictions := estimateContradictions gold out.KeyInsights
  let formatOK := !out.TLDR.isEmpty && !out.KeyInsights.isEmpty && !out.EvidenceQuotes.isEmpty
  { Recall := recallVal
    MissingInsights := missingCount gold.length matched
    Contradictions := contradictions
    QuoteCoverage := coverage
    FormatCompliant := formatOK
    Pass := decide (recallThreshold ≤ recallVal) && decide (contradictions = 0) && formatOK
    MatchedGoldCount := matched }

/-- `CaseResult` of `types.go`. -/
structure CaseResult where
  CaseID : String
  RawOutput : Str
  Parsed : ParsedOutput
  Score : Score
  TTFMS : ℤ
  Error : String

/-- `ModelSummary` of `types.go`. -/
structure ModelSummary where
  AverageRecall : ℚ
  AverageCoverage : ℚ
  TotalContradictions : ℤ
  FormatPassRate : ℚ
  OverallPass : Bool
deriving DecidableEq

/-- The zero value of `ModelSummary` returned by `BuildModelSummary`
for an empty case list. -/
def zeroSummary : ModelSummary :=
  { AverageRecall := 0, AverageCoverage := 0, TotalContradictions := 0,
    FormatPassRate := 0, OverallPass := false }

/-- `BuildModelSummary` of `score.go`.  The Go loop accumulates running
sums and counters across the cases; the model expresses the same totals
with `List.sum` and `List.countP`. -/
def BuildModelSummary (cases : List CaseResult) (recallThreshold : ℚ) : ModelSummary :=
  if cases.isEmpty then zeroSummary
  else
    let totalRecall := (cases.map (fun c => c.Score.Recall)).sum
    let totalCoverage := (cases.map (fun c => c.Score.QuoteCoverage)).sum
    let totalContradictions := (cases.map (fun c => c.Score.Contradictions)).sum
    let formatPasses := cases.countP (fun c => c.Score.FormatCompliant)
    let passCount := cases.countP (fun c => c.Score.Pass)
    let caseCount : ℚ := (cases.length : ℚ)
    let avgRecall := totalRecall / caseCount
    { AverageRecall := avgRecall
      AverageCoverage := totalCoverage / caseCount
      TotalContradictions := totalContradictions
      FormatPassRate := (formatPasses : ℚ) / caseCount
      OverallPass := decide (recallThreshold ≤ avgRecall) &&
        decide (totalContradictions = 0) && decide (passCount = cases.length) }

/-- The three-key JSON payload decoded by `ParseOutput` in `parse.go`
(`tldr`, `key_insights`, `evidence_quotes`). -/
structure PayloadJSON where
  tldr : Str
  key_insights : List Str
  evidence_quotes : List Str

/-- The ```` ```json ```` fence token stripped by `ParseOutput`. -/
def fenceJson : Str := btick :: btick :: btick :: "json".toList

/-- The ```` ``` ```` fence token stripped by `ParseOutput`. -/
def fenceTick : Str := btick :: btick :: btick :: []

/-- `if idx := strings.Index(clean, "{"); idx >= 0 { clean = clean[idx:] }`
of `parse.go`: slice from the first opening curly bracket when one is
present. -/
def sliceFromBrace (s : Str) : Str :=
  if lbrace ∈ s then s.dropWhile (fun c => c ≠ lbrace) else s

/-- `if idx := strings.LastIndex(clean, "}"); idx >= 0 { clean = clean[:idx+1] }`
of `parse.go`: cut just after the last closing curly bracket when one
is present. -/
def cutAfterBrace (s : Str) : Str :=
  if rbrace ∈ s then (s.reverse.dropWhile (fun c => c ≠ rbrace)).reverse else s

/-- The pre-parse text normalization of `ParseOutput` in `parse.go`:
trim, strip a leading ```` ```json ```` or ```` ``` ```` fence token and
a trailing ```` ``` ```` token, trim again, then slice from the first
opening curly bracket and cut after the last closing curly bracket. -/
def cleanse (raw : Str) : Str :=
  cutAfterBrace (sliceFromBrace
    (trimChars (trimSuf fenceTick (trimPre fenceTick (trimPre fenceJson (trimChars raw))))))

/-- The full opening fence line `"```json\n"` used when a model wraps
its JSON payload in a markdown code block. -/
def fenceOpen : Str := fenceJson ++ ['\n']

/-- The full closing fence line `"\n```"`. -/
def fenceClose : Str := '\n' :: fenceTick

/-- `ParseOutput` of `parse.go`, parameterised by the JSON decoder
(`encoding/json.Unmarshal` of the Go standard library, which is not
part of this repository): cleanse the raw text, decode it, and
trim-normalize every decoded field. -/
def ParseOutputWith (dec : Str → Option PayloadJSON) (raw : Str) :
    Except String ParsedOutput :=
  match dec (cleanse raw) with
  | none => Except.error "invalid JSON output"
  | some p =>
      Except.ok { TLDR := trimChars p.tldr
                  KeyInsights := normalizeLines p.key_insights
                  EvidenceQuotes := normalizeLines p.evidence_quotes }

/-- The error value of `validatePairing` in `dataset.go`: the two lists
of unmatched suffixes interpolated into the error message
`dataset has unmatched files (missing gold for: ...; missing source
for: ...)`. -/
structure PairingError where
  missingGold : List Str
  missingSource : List Str

/-- `missingKeys` of `dataset.go`: the keys of `have` absent from
`want`, sorted (`sort.Strings`). -/
def missingKeys (hv want : Finset Str) : List Str :=
  (hv.filter (fun k => k ∉ want)).sort (· ≤ ·)

/-- `validatePairing` of `dataset.go`: succeed exactly when every
source suffix has a gold suffix and vice versa, otherwise report both
lists of unmatched suffixes. -/
def validatePairing (sourceSuffixes goldSuffixes : Finset Str) : Option PairingError :=
  let missingGold := missingKeys sourceSuffixes goldSuffixes
  let missingSource := missingKeys goldSuffixes sourceSuffixes
  if missingGold.isEmpty && missingSource.isEmpty then none
  else some { missingGold := missingGold, missingSource := missingSource }

/-- The source-file suffixes collected by `classifyEntry` /
`loadSourceFile` of `dataset.go`: entries named `source_<id>.txt`,
keyed by `<id>` (a Go `map`, hence a set). -/
def sourceSuffixOf (entries : List Str) : Finset Str :=
  (entries.filterMap (fun name =>
    if "source_".toList.isPrefixOf name && ".txt".toList.isSuffixOf name
    then some (trimSuf ".txt".toList (trimPre "source_".toList name))
    else none)).toFinset

/-- The gold-file suffixes collected by `classifyEntry` /
`loadGoldFile` of `dataset.go`: entries named `gold_<id>.json`. -/
def goldSuffixOf (entries : List Str) : Finset Str :=
  (entries.filterMap (fun name =>
    if "gold_".toList.isPrefixOf name && ".json".toList.isSuffixOf name
    then some (trimSuf ".json".toList (trimPre "gold_".toList name))
    else none)).toFinset

/-- The pairing-validation stage of `LoadDataset` in `dataset.go`,
modelled over the list of file names of the dataset directory (the
file reads and gold-JSON decoding of `classifyEntry` are directory
I/O and are assumed to succeed). -/
def LoadDatasetPairing (entries : List Str) : Option PairingError :=
  validatePairing (sourceSuffixOf entries) (goldSuffixOf entries)

/-- `RunRecord` of `history.go`.  `GeneratedAt` models `time.Time` as a
monotone timestamp. -/
structure RunRecord where
  GeneratedAt : ℕ
  DatasetPath : String
  RecallThreshold : ℚ
  ModelID : String
  CaseCount : ℤ
  AverageRecall : ℚ
  AverageCoverage : ℚ
  Contradictions : ℤ
  FormatPassRate : ℚ
  OverallPass : Bool

/-- `LoadHistory` of `history.go`, modelled over the decoder for one
jsonl line (`encoding/json.Unmarshal`, Go standard library) and the
file content: `none` models a file that does not exist
(`os.IsNotExist`), `some fileLines` the scanned lines of an existing
file.  Empty lines and lines the decoder rejects are skipped. -/
def historyStep (dec : Str → Option RunRecord) (rows : List RunRecord) (line : Str) :
    List RunRecord :=
  let l := trimChars line
  if l.isEmpty then rows
  else
    match dec l with
    | none => rows
    | some r => rows ++ [r]

def LoadHistory (dec : Str → Option RunRecord) (file : Option (List Str)) :
    Except String (List RunRecord) :=
  match file with
  | none => Except.ok []
  | some fileLines => Except.ok (fileLines.foldl (historyStep dec) [])

/-- The per-model accumulator `agg` of `BuildLeaderboard` in
`history.go`. -/
structure AggState where
  runs : ℕ
  recallSum : ℚ
  bestRecall : ℚ
  coverageSum : ℚ
  contradictions : ℤ
  passes : ℕ
  lastSeen : ℕ

/-- The zero-valued accumulator created for a model first seen. -/
def zeroAgg : AggState :=
  { runs := 0, recallSum := 0, bestRecall := 0, coverageSum := 0,
    contradictions := 0, passes := 0, lastSeen := 0 }

/-- One record folded into a model's accumulator, mirroring the loop
body of `BuildLeaderboard`. -/
def updAgg (a : AggState) (r : RunRecord) : AggState :=
  { runs := a.runs + 1
    recallSum := a.recallSum + r.AverageRecall
    bestRecall := if a.bestRecall < r.AverageRecall then r.AverageRecall else a.bestRecall
    coverageSum := a.coverageSum + r.AverageCoverage
    contradictions := a.contradictions + r.Contradictions
    passes := if r.OverallPass then a.passes + 1 else a.passes
    lastSeen := if a.lastSeen < r.GeneratedAt then r.GeneratedAt else a.lastSeen }

/-- Insert one record into the association list keyed by model id (the
Go `byModel` map; the map's iteration order is unspecified in Go, the
model uses first-seen order). -/
def updateAssoc : List (String × AggState) → String → RunRecord → List (String × AggState)
  | [], m, r => [(m, updAgg zeroAgg r)]
  | (k, a) :: rest, m, r =>
      if k = m then (k, updAgg a r) :: rest else (k, a) :: updateAssoc rest m r

/-- The grouping loop of `BuildLeaderboard`. -/
def groupByModel (records : List RunRecord) : List (String × AggState) :=
  records.foldl (fun acc r => updateAssoc acc r.ModelID r) []

/-- `LeaderboardRow` of `history.go`. -/
structure LeaderboardRow where
  ModelID : String
  Runs : ℕ
  AverageRecall : ℚ
  BestRecall : ℚ
  AverageCoverage : ℚ
  TotalContradictions : ℤ
  OverallPassRate : ℚ
  LastSeen : ℕ

/-- The row built from one model's accumulator in `BuildLeaderboard`
(`runs ≥ 1` always holds for a grouped model, so the divisions are by a
positive count). -/
def rowOf (entry : String × AggState) : LeaderboardRow :=
  { ModelID := entry.1
    Runs := entry.2.runs
    AverageRecall := entry.2.recallSum / (entry.2.runs : ℚ)
    BestRecall := entry.2.bestRecall
    AverageCoverage := entry.2.coverageSum / (entry.2.runs : ℚ)
    TotalContradictions := entry.2.contradictions
    OverallPassRate := (entry.2.passes : ℚ) / (entry.2.runs : ℚ)
    LastSeen := entry.2.lastSeen }

/-- The comparator passed to `sort.Slice` in `BuildLeaderboard`:
average recall descending, then best recall descending, then run count
descending. -/
def lessRow (a b : LeaderboardRow) : Bool :=
  if a.AverageRecall = b.AverageRecall then
    (if a.BestRecall = b.BestRecall then decide (b.Runs < a.Runs)
     else decide (b.BestRecall < a.BestRecall))
  else decide (b.AverageRecall < a.AverageRecall)

/-- `BuildLeaderboard` of `history.go`: group the records by model,
build one row per model, and sort with the `lessRow` comparator
(`sort.Slice` makes no stability promise; any order consistent with the
comparator is a faithful refinement). -/
def BuildLeaderboard (records : List RunRecord) : List LeaderboardRow :=
  ((groupByModel records).map rowOf).mergeSort (fun x y => !lessRow y x)

/-- Row `a` has a strictly lexicographically higher
`(AverageRecall, BestRecall, Runs)` tuple than row `b` (the ordering
stated by the spec for `BuildLeaderboard`). -/
def lexHigher (a b : LeaderboardRow) : Prop :=
  b.AverageRecall < a.AverageRecall ∨
    (b.AverageRecall = a.AverageRecall ∧
      (b.BestRecall < a.BestRecall ∨
        (b.BestRecall = a.BestRecall ∧ b.Runs < a.Runs)))

/-- The sort key of a leaderboard row, as a lexicographic triple. -/
def rowKey (r : LeaderboardRow) : Lex (ℚ × Lex (ℚ × ℕ)) :=
  toLex (r.AverageRecall, toLex (r.BestRecall, r.Runs))

/-- A predicted insight containing the whole word `can't`. -/
def predCant : Str :=
  "The reactor design can".toList ++ apos :: "t operate safely today".toList

/-- The matching gold insight, without any negation marker. -/
def goldCant : Str := "The reactor design can operate safely today".toList

/-- Concrete inputs used by the witness theorems. -/
def sampleScore : Score :=
  { Recall := 1, MissingInsights := 0, Contradictions := 0, QuoteCoverage := 1,
    FormatCompliant := true, Pass := true, MatchedGoldCount := 1 }

def sampleParsed : ParsedOutput :=
  { TLDR := "summary".toList, KeyInsights := ["hello".toList],
    EvidenceQuotes := ["quote".toList] }

def sampleCaseResult : CaseResult :=
  { CaseID := "01", RawOutput := [], Parsed := sampleParsed, Score := sampleScore,
    TTFMS := 0, Error := "" }

section Theorems

theorem listContains_nil (hay : Str) : listContains hay [] = true := by
  cases hay <;> rfl

/-- Claim C1: for every case, parsed output and threshold, the score's
`Recall` is `MatchedGoldCount` divided by the number of trimmed,
non-empty gold insights when that list is non-empty and `0` otherwise,
and `Pass` holds exactly when the recall meets the threshold, the
contradiction count is zero and the output is format-compliant. -/
theorem scoreCase_recall_and_pass (c : Case) (out : ParsedOutput) (t : ℚ) :
    ((ScoreCase c out t).Recall =
      if 0 < (normalizeLines c.GoldInsights).length
      then ((ScoreCase c out t).MatchedGoldCount : ℚ) /
        ((normalizeLines c.GoldInsights).length : ℚ)
      else 0) ∧
    ((ScoreCase c out t).Pass =
      (decide (t ≤ (ScoreCase c out t).Recall) &&
        decide ((ScoreCase c out t).Contradictions = 0) &&
        (ScoreCase c out t).FormatCompliant)) :=
  ⟨rfl, rfl⟩

/-- Claim C2: `BuildModelSummary` sets `OverallPass` only if the
averaged recall meets the threshold, the summed contradiction count is
zero and every case's `Pass` flag is true; an empty case list yields
the zero-valued summary. -/
theorem buildModelSummary_overall_pass (cases : List CaseResult) (t : ℚ) :
    BuildModelSummary [] t = zeroSummary ∧
    ((BuildModelSummary cases t).OverallPass = true →
      t ≤ (cases.map (fun c => c.Score.Recall)).sum / (cases.length : ℚ) ∧
      (cases.map (fun c => c.Score.Contradictions)).sum = 0 ∧
      ∀ cr ∈ cases, cr.Score.Pass = true) := by
  refine ⟨rfl, fun h => ?_⟩
  by_cases hc : cases.isEmpty
  · rw [BuildModelSummary, if_pos hc] at h
    exact absurd h (by simp [zeroSummary])
  · rw [BuildModelSummary, if_neg hc] at h
    simp only [Bool.and_eq_true, decide_eq_true_eq] at h
    obtain ⟨⟨h1, h2⟩, h3⟩ := h
    exact ⟨h1, h2, fun cr hcr => List.countP_eq_length.mp h3 cr hcr⟩

theorem buildModelSummary_overall_pass_witness :
    (BuildModelSummary [sampleCaseResult] 0).OverallPass = true ∧
    (0 ≤ ([sampleCaseResult].map (fun c => c.Score.Recall)).sum /
        (([sampleCaseResult] : List CaseResult).length : ℚ) ∧
      ([sampleCaseResult].map (fun c => c.Score.Contradictions)).sum = 0 ∧
      ∀ cr ∈ [sampleCaseResult], cr.Score.Pass = true) := by
  have hpass : (BuildModelSummary [sampleCaseResult] 0).OverallPass = true := by
    simp [BuildModelSummary, sampleCaseResult, sampleScore]
  exact ⟨hpass, (buildModelSummary_overall_pass [sampleCaseResult] 0).2 hpass⟩

theorem contradictionFlag_eq_zero (gold : List Str) (p : Str)
    (h : containsNegation (normalizeText p) = false) :
    contradictionFlag gold p = 0 := by
  unfold contradictionFlag
  simp [h]

/-- Claim C6: a predicted insight with no negation marker is never
counted as a contradiction by `ScoreCase`: removing it from the
predicted list leaves the contradiction count unchanged, whatever its
overlap with the gold insights. -/
theorem scoreCase_no_negation_no_contradiction (c : Case) (out : ParsedOutput) (t : ℚ)
    (pre post : List Str) (p : Str)
    (hk : out.KeyInsights = pre ++ p :: post)
    (hneg : containsNegation (normalizeText p) = false) :
    (ScoreCase c out t).Contradictions =
      (ScoreCase c { out with KeyInsights := pre ++ post } t).Contradictions := by
  have e1 : (ScoreCase c out t).Contradictions =
      estimateContradictions (normalizeLines c.GoldInsights) out.KeyInsights := rfl
  have e2 : (ScoreCase c { out with KeyInsights := pre ++ post } t).Contradictions =
      estimateContradictions (normalizeLines c.GoldInsights) (pre ++ post) := rfl
  rw [e1, e2, hk]
  unfold estimateContradictions
  simp [contradictionFlag_eq_zero _ _ hneg]

theorem scoreCase_no_negation_no_contradiction_witness :
    (sampleParsed.KeyInsights = [] ++ "hello".toList :: [] ∧
      containsNegation (normalizeText "hello".toList) = false) ∧
    (ScoreCase (Case.mk "01" "t" "src".toList ["gold words here".toList]) sampleParsed
        (9/10)).Contradictions =
      (ScoreCase (Case.mk "01" "t" "src".toList ["gold words here".toList])
        { sampleParsed with KeyInsights := [] ++ [] } (9/10)).Contradictions :=
  ⟨⟨rfl, by decide⟩,
    scoreCase_no_negation_no_contradiction _ sampleParsed (9/10) [] [] "hello".toList
      rfl (by decide)⟩

/-- Claim C3: the `" can't "` negation marker of `containsNegation` can
never fire, because `estimateContradictions` applies it to
`normalizeText` output, from which the apostrophe has already been
erased.  At the concrete input below the predicted insight contains the
whole word `can't` (first conjunct), its token overlap with the sole,
negation-free gold insight is `1 ≥ 0.45` (third and fourth conjuncts),
yet the code counts zero contradictions (last conjunct), where the
claim requires one. -/
theorem cant_marker_never_fires :
    containsNegation (toLowerL predCant) = true ∧
    containsNegation (normalizeText predCant) = false ∧
    containsNegation (normalizeText goldCant) = false ∧
    (0.45 : ℚ) ≤ tokenOverlap (normalizeText predCant) (normalizeText goldCant) ∧
    estimateContradictions [goldCant] [predCant] = 0 := by
  refine ⟨by decide, by decide, by decide, ?_, by decide⟩
  have hA : (tokenSet (normalizeText predCant)).card = 7 := by decide
  have hB : (tokenSet (normalizeText goldCant)).card = 7 := by decide
  have hI : (tokenSet (normalizeText predCant) ∩ tokenSet (normalizeText goldCant)).card = 7 := by
    decide
  unfold tokenOverlap
  rw [hA, hB, hI, if_neg (by norm_num)]
  norm_num

/-- Claim C8: loading an existing history file returns exactly the
decoded records of the lines that are non-empty after trimming and that
the decoder accepts, in order; corrupt lines are skipped and never make
the load fail. -/
theorem loadHistory_skips_corrupt_lines (dec : Str → Option RunRecord)
    (fileLines : List Str) :
    LoadHistory dec (some fileLines) =
      Except.ok (((fileLines.map trimChars).filter (fun l => l ≠ [])).filterMap dec) := by
  suffices h : ∀ (ls : List Str) (acc : List RunRecord),
      ls.foldl (historyStep dec) acc =
      acc ++ ((ls.map trimChars).filter (fun l => l ≠ [])).filterMap dec by
    exact congrArg Except.ok (by simpa using h fileLines [])
  intro ls
  induction ls with
  | nil => intro acc; simp
  | cons x xs ih =>
      intro acc
      rw [List.foldl_cons]
      by_cases hx : trimChars x = []
      · have hstep : historyStep dec acc x = acc := by simp [historyStep, hx]
        rw [hstep, ih acc]
        simp [hx]
      · have hne : (trimChars x).isEmpty = false := by
          simpa [List.isEmpty_iff] using hx
        cases hd : dec (trimChars x) with
        | none =>
            have hstep : historyStep dec acc x = acc := by simp [historyStep, hne, hd]
            rw [hstep, ih acc]
            simp [hx, hd]
        | some r =>
            have hstep : historyStep dec acc x = acc ++ [r] := by
              simp [historyStep, hne, hd]
            rw [hstep, ih (acc ++ [r])]
            simp [hx, hd]

/-- Claim C10: loading a history file that does not exist yields an
empty record list and no error. -/
theorem loadHistory_missing_file (dec : Str → Option RunRecord) :
    LoadHistory dec none = Except.ok [] := rfl

/-- Claim C9: a gold insight that is non-empty after trimming but whose
normalization is empty (for example punctuation only) is counted as
matched by `ScoreCase` whenever some predicted insight has a non-empty
normalization, because the empty string is a substring of anything. -/
theorem scoreCase_empty_normalization_gold_matches (c : Case) (out : ParsedOutput)
    (t : ℚ) (g : Str)
    (hg : g ∈ c.GoldInsights) (hg1 : trimChars g ≠ [])
    (hg2 : normalizeText (trimChars g) = [])
    (hp : ∃ p ∈ out.KeyInsights, normalizeText p ≠ []) :
    hasInsightMatch (trimChars g) out.KeyInsights = true ∧
    1 ≤ (ScoreCase c out t).MatchedGoldCount := by
  obtain ⟨p, hpmem, hpne⟩ := hp
  have hmatch : hasInsightMatch (trimChars g) out.KeyInsights = true := by
    unfold hasInsightMatch
    rw [List.any_eq_true]
    refine ⟨p, hpmem, ?_⟩
    simp [hg2, listContains_nil, List.isEmpty_iff, hpne]
  refine ⟨hmatch, ?_⟩
  have hmem : trimChars g ∈ normalizeLines c.GoldInsights := by
    unfold normalizeLines
    rw [List.mem_filter]
    exact ⟨List.mem_map_of_mem trimChars hg, by simpa using hg1⟩
  have hcount : (ScoreCase c out t).MatchedGoldCount =
      (normalizeLines c.GoldInsights).countP
        (fun g' => hasInsightMatch g' out.KeyInsights) := rfl
  rw [hcount]
  exact Nat.succ_le_of_lt (List.countP_pos_iff.mpr ⟨trimChars g, hmem, hmatch⟩)

theorem scoreCase_empty_normalization_gold_matches_witness :
    ("!!!".toList ∈ (Case.mk "01" "t" "src".toList ["!!!".toList]).GoldInsights ∧
      trimChars "!!!".toList ≠ [] ∧
      normalizeText (trimChars "!!!".toList) = [] ∧
      (∃ p ∈ sampleParsed.KeyInsights, normalizeText p ≠ [])) ∧
    (hasInsightMatch (trimChars "!!!".toList) sampleParsed.KeyInsights = true ∧
      1 ≤ (ScoreCase (Case.mk "01" "t" "src".toList ["!!!".toList]) sampleParsed
        (9/10)).MatchedGoldCount) :=
  ⟨⟨by decide, by decide, by decide, by decide⟩,
    scoreCase_empty_normalization_gold_matches _ sampleParsed (9/10) "!!!".toList
      (by decide) (by decide) (by decide) (by decide)⟩

theorem mem_missingKeys (s : Str) (hv want : Finset Str) :
    s ∈ missingKeys hv want ↔ s ∈ hv ∧ s ∉ want := by
  unfold missingKeys
  rw [Finset.mem_sort]
  simp

/-- Claim C7: when some suffix has a source file without a gold file or
a gold file without a source file, the pairing stage of `LoadDataset`
fails and the error names every unmatched suffix on both sides: its
`missing gold` list holds exactly the source-only suffixes and its
`missing source` list exactly the gold-only suffixes. -/
theorem loadDataset_reports_all_unmatched (entries : List Str)
    (h : (∃ s ∈ sourceSuffixOf entries, s ∉ goldSuffixOf entries) ∨
         (∃ s ∈ goldSuffixOf entries, s ∉ sourceSuffixOf entries)) :
    ∃ e, LoadDatasetPairing entries = some e ∧
      (∀ s, s ∈ e.missingGold ↔ s ∈ sourceSuffixOf entries ∧ s ∉ goldSuffixOf entries) ∧
      (∀ s, s ∈ e.missingSource ↔ s ∈ goldSuffixOf entries ∧ s ∉ sourceSuffixOf entries) := by
  unfold LoadDatasetPairing validatePairing
  set S := sourceSuffixOf entries with hS
  set G := goldSuffixOf entries with hG
  have hcond : ¬(((missingKeys S G).isEmpty && (missingKeys G S).isEmpty) = true) := by
    rcases h with ⟨s, hs1, hs2⟩ | ⟨s, hs1, hs2⟩
    · have : s ∈ missingKeys S G := (mem_missingKeys s S G).mpr ⟨hs1, hs2⟩
      simp only [Bool.and_eq_true, List.isEmpty_iff]
      rintro ⟨h1, -⟩
      rw [h1] at this
      exact absurd this (List.not_mem_nil s)
    · have : s ∈ missingKeys G S := (mem_missingKeys s G S).mpr ⟨hs1, hs2⟩
      simp only [Bool.and_eq_true, List.isEmpty_iff]
      rintro ⟨-, h2⟩
      rw [h2] at this
      exact absurd this (List.not_mem_nil s)
  rw [if_neg hcond]
  exact ⟨_, rfl, fun s => mem_missingKeys s S G, fun s => mem_missingKeys s G S⟩

theorem loadDataset_reports_all_unmatched_witness :
    ((∃ s ∈ sourceSuffixOf ["source_01.txt".toList], s ∉ goldSuffixOf ["source_01.txt".toList]) ∨
      (∃ s ∈ goldSuffixOf ["source_01.txt".toList], s ∉ sourceSuffixOf ["source_01.txt".toList])) ∧
    (∃ e, LoadDatasetPairing ["source_01.txt".toList] = some e ∧
      (∀ s, s ∈ e.missingGold ↔
        s ∈ sourceSuffixOf ["source_01.txt".toList] ∧ s ∉ goldSuffixOf ["source_01.txt".toList]) ∧
      (∀ s, s ∈ e.missingSource ↔
        s ∈ goldSuffixOf ["source_01.txt".toList] ∧ s ∉ sourceSuffixOf ["source_01.txt".toList])) :=
  ⟨Or.inl (by decide), loadDataset_reports_all_unmatched _ (Or.inl (by decide))⟩

theorem lessRow_iff (a b : LeaderboardRow) : lessRow a b = true ↔ lexHigher a b := by
  unfold lessRow lexHigher
  by_cases h1 : a.AverageRecall = b.AverageRecall
  · rw [if_pos h1]
    by_cases h2 : a.BestRecall = b.BestRecall
    · rw [if_pos h2]
      simp [h1, h2]
    · rw [if_neg h2]
      simp [h1, Ne.symm h2]
  · rw [if_neg h1]
    simp [Ne.symm h1]

theorem lexHigher_iff_key (a b : LeaderboardRow) :
    lexHigher a b ↔ rowKey b < rowKey a := by
  unfold lexHigher rowKey
  simp [Prod.Lex.lt_iff]

theorem rowLe_iff (x y : LeaderboardRow) :
    (!lessRow y x) = true ↔ rowKey y ≤ rowKey x := by
  have hiff : lessRow y x = true ↔ rowKey x < rowKey y :=
    (lessRow_iff y x).trans (lexHigher_iff_key y x)
  rw [Bool.not_eq_true']
  constructor
  · intro h
    refine not_lt.mp (fun hlt => ?_)
    rw [hiff.mpr hlt] at h
    simp at h
  · intro h
    cases hb : lessRow y x with
    | false => rfl
    | true => exact absurd (hiff.mp hb) (not_lt.mpr h)

/-- Claim C5: the rows returned by `BuildLeaderboard` are ordered so
that no row has a strictly lexicographically higher
`(AverageRecall, BestRecall, Runs)` tuple than any row preceding it:
rows are sorted by average recall, then best recall, then run count,
all descending. -/
theorem buildLeaderboard_sorted (records : List RunRecord) :
    (BuildLeaderboard records).Pairwise (fun a b => ¬ lexHigher b a) := by
  unfold BuildLeaderboard
  have htrans : ∀ a b c : LeaderboardRow,
      (fun x y => !lessRow y x) a b = true → (fun x y => !lessRow y x) b c = true →
      (fun x y => !lessRow y x) a c = true := by
    intro a b c hab hbc
    simp only at hab hbc ⊢
    rw [rowLe_iff] at hab hbc ⊢
    exact le_trans hbc hab
  have htot : ∀ a b : LeaderboardRow,
      ((fun x y => !lessRow y x) a b || (fun x y => !lessRow y x) b a) = true := by
    intro a b
    simp only [Bool.or_eq_true]
    rcases le_total (rowKey b) (rowKey a) with h | h
    · exact Or.inl ((rowLe_iff a b).mpr h)
    · exact Or.inr ((rowLe_iff b a).mpr h)
  have hs := List.sorted_mergeSort htrans htot ((groupByModel records).map rowOf)
  refine hs.imp (fun hab => ?_)
  intro hl
  exact absurd ((lexHigher_iff_key _ _).mp hl)
    (not_lt.mpr ((rowLe_iff _ _).mp hab))

theorem dropWhile_append_marker (p : Char → Bool) (A R : Str) (c : Char)
    (hc : p c = false) :
    (A ++ c :: R).dropWhile p = A.dropWhile p ++ c :: R := by
  induction A with
  | nil => simp [List.dropWhile_cons, hc]
  | cons a as ih =>
      by_cases h : p a
      · simp [List.dropWhile_cons, h, ih]
      · simp [List.dropWhile_cons, h]

theorem trimPre_append_marker (X A R : Str) (c : Char) (hX : c ∉ X) (hA : c ∉ A) :
    ∃ A', trimPre X (A ++ c :: R) = A' ++ c :: R ∧ c ∉ A' := by
  unfold trimPre
  by_cases h : X.isPrefixOf (A ++ c :: R)
  · rw [if_pos h]
    have hpre : X <+: A ++ c :: R := List.isPrefixOf_iff_prefix.mp h
    have hlen : X.length ≤ A.length := by
      by_contra hlt
      push_neg at hlt
      obtain ⟨T, hT⟩ := hpre
      apply hX
      have h1 : (A ++ c :: R)[A.length]? = some c := by
        rw [List.getElem?_append_right (le_refl A.length)]
        simp
      rw [← hT, List.getElem?_append, if_pos hlt] at h1
      obtain ⟨hlt2, hget⟩ := List.getElem?_eq_some_iff.mp h1
      exact hget ▸ List.getElem_mem hlt2
    refine ⟨A.drop X.length, ?_, fun hm => hA (List.drop_subset _ _ hm)⟩
    rw [List.drop_append_of_le_length hlen]
  · rw [if_neg h]
    exact ⟨A, rfl, hA⟩

theorem rev_decomp (A M B : Str) (c d : Char) :
    (A ++ c :: (M ++ d :: B)).reverse = B.reverse ++ d :: (M.reverse ++ c :: A.reverse) := by
  simp

theorem trimChars_shape (A M B : Str) (hA : lbrace ∉ A) (hB : rbrace ∉ B) :
    ∃ A' B', trimChars (A ++ lbrace :: (M ++ rbrace :: B)) =
        A' ++ lbrace :: (M ++ rbrace :: B') ∧
      lbrace ∉ A' ∧ rbrace ∉ B' := by
  refine ⟨A.dropWhile isSp, (B.reverse.dropWhile isSp).reverse, ?_, ?_, ?_⟩
  · unfold trimChars
    rw [dropWhile_append_marker isSp A (M ++ rbrace :: B) lbrace (by decide)]
    rw [rev_decomp (A.dropWhile isSp) M B lbrace rbrace]
    rw [dropWhile_append_marker isSp B.reverse
      (M.reverse ++ lbrace :: (A.dropWhile isSp).reverse) rbrace (by decide)]
    have hback :
        B.reverse.dropWhile isSp ++
            rbrace :: (M.reverse ++ lbrace :: (A.dropWhile isSp).reverse) =
          ((A.dropWhile isSp) ++
            lbrace :: (M ++ rbrace :: (B.reverse.dropWhile isSp).reverse)).reverse := by
      rw [rev_decomp]
      simp
    rw [hback, List.reverse_reverse]
  · exact fun hm => hA ((List.dropWhile_sublist isSp).subset hm)
  · intro hm
    rw [List.mem_reverse] at hm
    have := (List.dropWhile_sublist isSp).subset hm
    rw [List.mem_reverse] at this
    exact hB this

theorem trimSuf_eq_rev (X s : Str) :
    trimSuf X s = (trimPre X.reverse s.reverse).reverse := by
  unfold trimSuf trimPre
  have hiso : X.isSuffixOf s = X.reverse.isPrefixOf s.reverse := rfl
  rw [hiso]
  by_cases h : X.reverse.isPrefixOf s.reverse
  · rw [if_pos h, if_pos h, List.length_reverse, List.drop_reverse, List.reverse_reverse]
  · rw [if_neg h, if_neg h, List.reverse_reverse]

theorem trimSuf_shape (X A M B : Str) (hX : rbrace ∉ X) (hB : rbrace ∉ B) :
    ∃ B', trimSuf X (A ++ lbrace :: (M ++ rbrace :: B)) =
        A ++ lbrace :: (M ++ rbrace :: B') ∧
      rbrace ∉ B' := by
  rw [trimSuf_eq_rev, rev_decomp A M B lbrace rbrace]
  obtain ⟨A2, hA2, hmem⟩ := trimPre_append_marker X.reverse B.reverse
    (M.reverse ++ lbrace :: A.reverse) rbrace (by simpa using hX) (by simpa using hB)
  rw [hA2]
  refine ⟨A2.reverse, ?_, by simpa using hmem⟩
  rw [rev_decomp A2 M.reverse A.reverse rbrace lbrace]
  simp

theorem dropWhile_ne_marker (A R : Str) (c : Char) (hA : c ∉ A) :
    (A ++ c :: R).dropWhile (fun x => x ≠ c) = c :: R := by
  induction A with
  | nil => simp [List.dropWhile_cons]
  | cons a as ih =>
      have ha : a ≠ c := fun h => hA (h ▸ List.mem_cons_self a as)
      have has : c ∉ as := fun h => hA (List.mem_cons_of_mem a h)
      rw [List.cons_append, List.dropWhile_cons, if_pos (by simpa using ha), ih has]

theorem cleanse_extracts (pre mid post : Str) (hpre : lbrace ∉ pre)
    (hpost : rbrace ∉ post) :
    cleanse (pre ++ (lbrace :: mid ++ [rbrace]) ++ post) = lbrace :: mid ++ [rbrace] := by
  have hshape : pre ++ (lbrace :: mid ++ [rbrace]) ++ post =
      pre ++ lbrace :: (mid ++ rbrace :: post) := by simp
  rw [hshape]
  unfold cleanse
  obtain ⟨A1, B1, h1, hA1, hB1⟩ := trimChars_shape pre mid post hpre hpost
  rw [h1]
  obtain ⟨A2, h2, hA2⟩ :=
    trimPre_append_marker fenceJson A1 (mid ++ rbrace :: B1) lbrace (by decide) hA1
  rw [h2]
  obtain ⟨A3, h3, hA3⟩ :=
    trimPre_append_marker fenceTick A2 (mid ++ rbrace :: B1) lbrace (by decide) hA2
  rw [h3]
  obtain ⟨B2, h4, hB2⟩ := trimSuf_shape fenceTick A3 mid B1 (by decide) hB1
  rw [h4]
  obtain ⟨A4, B3, h5, hA4, hB3⟩ := trimChars_shape A3 mid B2 hA3 hB2
  rw [h5]
  unfold sliceFromBrace
  have hmem : lbrace ∈ A4 ++ lbrace :: (mid ++ rbrace :: B3) := by simp
  rw [if_pos hmem, dropWhile_ne_marker A4 (mid ++ rbrace :: B3) lbrace hA4]
  unfold cutAfterBrace
  have hmem2 : rbrace ∈ lbrace :: (mid ++ rbrace :: B3) := by simp
  rw [if_pos hmem2]
  have hrev : (lbrace :: (mid ++ rbrace :: B3)).reverse =
      B3.reverse ++ rbrace :: (mid.reverse ++ [lbrace]) := by
    simp
  rw [hrev, dropWhile_ne_marker B3.reverse (mid.reverse ++ [lbrace])
    rbrace (by simpa using hB3)]
  simp

/-- Claim C4: wrapping a three-key JSON payload in ```` ```json ... ``` ````
fences, or surrounding it with arbitrary prose containing no opening
curly bracket before it and no closing curly bracket after it, parses
to the same result as the bare payload, for every JSON decoder. -/
theorem parseOutput_wrapping_invariant (dec : Str → Option PayloadJSON)
    (mid pre post : Str) (hpre : lbrace ∉ pre) (hpost : rbrace ∉ post) :
    ParseOutputWith dec (pre ++ (lbrace :: mid ++ [rbrace]) ++ post) =
      ParseOutputWith dec (lbrace :: mid ++ [rbrace]) ∧
    ParseOutputWith dec (fenceOpen ++ (lbrace :: mid ++ [rbrace]) ++ fenceClose) =
      ParseOutputWith dec (lbrace :: mid ++ [rbrace]) := by
  have hbare : cleanse (lbrace :: mid ++ [rbrace]) = lbrace :: mid ++ [rbrace] := by
    simpa using cleanse_extracts [] mid [] (by simp) (by simp)
  have h1 := cleanse_extracts pre mid post hpre hpost
  have h2 := cleanse_extracts fenceOpen mid fenceClose (by decide) (by decide)
  unfold ParseOutputWith
  rw [h1, h2, hbare]
  exact ⟨rfl, rfl⟩

theorem parseOutput_wrapping_invariant_witness :
    (lbrace ∉ "Sure, the JSON is: ".toList ∧ rbrace ∉ " Hope this helps.".toList) ∧
    (ParseOutputWith (fun _ => none)
        ("Sure, the JSON is: ".toList ++ (lbrace :: "x".toList ++ [rbrace]) ++
          " Hope this helps.".toList) =
      ParseOutputWith (fun _ => none) (lbrace :: "x".toList ++ [rbrace]) ∧
    ParseOutputWith (fun _ => none)
        (fenceOpen ++ (lbrace :: "x".toList ++ [rbrace]) ++ fenceClose) =
      ParseOutputWith (fun _ => none) (lbrace :: "x".toList ++ [rbrace])) :=
  ⟨⟨by decide, by decide⟩,
    parseOutput_wrapping_invariant (fun _ => none) "x".toList
      "Sure, the JSON is: ".toList " Hope this helps.".toList (by decide) (by decide)⟩

end Theorems
